import Mathlib

/-!
Verification of the `ns2-stat` analytical core against its specification.

The development shallowly embeds the Rust sources:
  * `ns2-stat/src/lib.rs` — the match filter (`GameIterator::genuine`) and the
    aggregation engine (`NS2Stats::compute`, `Stat::add`, `get_commander`);
  * `ns2-stat-cli/src/teams.rs` — the team balancer (`balanced_partitioning`).

Machine integers (`u32`) are modelled as `ℕ` (none of the verified properties
is sensitive to wrap-around, which would act identically on both sides of
every equation below).  IEEE-754 `f32` values are modelled as exact rationals
together with an explicit round-to-nearest-even operation applied after every
arithmetic operation, exactly as binary32 arithmetic behaves on finite values;
infinities and NaN are outside the modelled domain (no verified property
produces them on the inputs considered).  `HashMap`s are modelled as
association lists in iteration order; the embedded code never reads the
`SteamId` keys of `player_stats`, so that map is modelled as the list of its
values.
-/

namespace Ns2

/-! ## A model of binary32 (`f32`) arithmetic on finite values -/

/-- Value space of the `f32` model: the exact rational value of a float. -/
abbrev F32 := ℚ

/-- Fuel-bounded binary search downwards: while `2 ≤ q`, halve `q` and
increment the exponent.  Used to compute the floor of the base-2 logarithm. -/
def expDown : ℕ → ℚ → ℤ → ℤ
  | 0, _, e => e
  | f + 1, q, e => if 2 ≤ q then expDown f (q / 2) (e + 1) else e

/-- Fuel-bounded binary search upwards: while `q < 1`, double `q` and
decrement the exponent. -/
def expUp : ℕ → ℚ → ℤ → ℤ
  | 0, _, e => e
  | f + 1, q, e => if q < 1 then expUp f (q * 2) (e - 1) else e

/-- Floor of the base-2 logarithm of a positive rational.  The fuel `600`
covers every exponent reachable from finite binary32 values (|exponent| is at
most 149 for the values themselves and stays below 300 for products and
quotients of two such values). -/
def log2floorQ (q : ℚ) : ℤ :=
  if 1 ≤ q then expDown 600 q 0 else expUp 600 q 0

/-- Round a rational to the nearest binary32 value (round half to even).
The exponent is clamped below at `-126` so that subnormal values round to the
subnormal grid; overflow to infinity is not modelled (the inputs appearing in
this development stay far below the largest finite `f32`). -/
def roundF32 (q : ℚ) : ℚ :=
  if q = 0 then 0
  else
    let sgn : ℚ := if q < 0 then -1 else 1
    let aq : ℚ := if q < 0 then -q else q
    let e : ℤ := max (log2floorQ aq) (-126)
    let ulp : ℚ := 2 ^ (e - 23)
    let x : ℚ := aq / ulp
    let n : ℤ := x.floor
    let r : ℚ := x - n
    let m : ℤ :=
      if r < 1 / 2 then n
      else if 1 / 2 < r then n + 1
      else if n % 2 = 0 then n else n + 1
    sgn * m * ulp

/-- `f32` addition: exact sum, then rounding. -/
def fadd32 (a b : F32) : F32 := roundF32 (a + b)

/-- `f32` subtraction: exact difference, then rounding. -/
def fsub32 (a b : F32) : F32 := roundF32 (a - b)

/-- `f32` multiplication: exact product, then rounding. -/
def fmul32 (a b : F32) : F32 := roundF32 (a * b)

/-- `f32` division: exact quotient, then rounding. -/
def fdiv32 (a b : F32) : F32 := roundF32 (a / b)

/-- The Rust cast `u32 as f32` (round to nearest even). -/
def u32ToF32 (n : ℕ) : F32 := roundF32 (n : ℚ)

/-- The Rust cast `f32 as u32`: truncate towards zero, saturating at the
bounds of `u32` (negative values go to `0`). -/
def f32ToU32 (q : F32) : ℕ :=
  if q < 0 then 0 else min q.floor.toNat (2 ^ 32 - 1)

/-! ## Input data model (`ns2-stat/src/input_types.rs`)

Only the fields read by the embedded functions are retained; all other fields
of the Rust structs (kill feed, buildings, weapon tables, server info, …) are
never touched by the functions under verification. -/

/-- `input_types::Team`. -/
inductive Team where
  | Marines
  | Aliens
deriving DecidableEq, Repr

/-- `input_types::WinningTeam`. -/
inductive WinningTeam where
  | NoneW
  | Marines
  | Aliens
deriving DecidableEq, Repr

/-- `input_types::PlayerTeamStats` (the per-side counters that
`NS2Stats::compute` and the filters read). -/
structure PlayerTeamStats where
  kills : ℕ
  deaths : ℕ
  assists : ℕ
  score : ℕ
  hits : ℕ
  misses : ℕ
  time_played : ℚ
  commander_time : ℚ
deriving DecidableEq, Repr

/-- `input_types::PlayerStat` (per-player entry of `player_stats`). -/
structure PlayerStat where
  marines : PlayerTeamStats
  aliens : PlayerTeamStats
  player_name : String
deriving DecidableEq, Repr

/-- `input_types::RoundInfo` (the fields read by the embedded functions). -/
structure RoundInfo where
  round_date : ℕ
  winning_team : WinningTeam
  round_length : ℚ
  map_name : String
deriving DecidableEq, Repr

/-- `input_types::GameStats`.  `player_stats` is the `SteamId → PlayerStat`
hash map, modelled as its list of values in iteration order (the embedded
code only ever iterates over `.values()`). -/
structure GameStats where
  player_stats : List PlayerStat
  round_info : RoundInfo
deriving DecidableEq, Repr

/-! ## The match filter (`GameIterator` in `ns2-stat/src/lib.rs`) -/

/-- `GameIterator::filter_by_length`: keep the games whose `round_length`
satisfies the predicate. -/
def filter_by_length (f : ℚ → Bool) (games : List GameStats) : List GameStats :=
  games.filter fun game => f game.round_info.round_length

/-- Count of players of a game with nonzero marine time (the `max_marines`
counter of `filter_bot_games`). -/
def marineCount (game : GameStats) : ℕ :=
  game.player_stats.countP fun player => decide (0 < player.marines.time_played)

/-- Count of players of a game with nonzero alien time (the `max_aliens`
counter of `filter_bot_games`). -/
def alienCount (game : GameStats) : ℕ :=
  game.player_stats.countP fun player => decide (0 < player.aliens.time_played)

/-- `GameIterator::filter_bot_games`: keep the games in which both sides had
strictly more than 2 players with nonzero time played. -/
def filter_bot_games (games : List GameStats) : List GameStats :=
  games.filter fun game => decide (2 < marineCount game) && decide (2 < alienCount game)

/-- `GameIterator::genuine`: the length filter (`round_length ≥ 300`)
followed by the bot-game filter. -/
def genuine (games : List GameStats) : List GameStats :=
  filter_bot_games (filter_by_length (fun length => decide (300 ≤ length)) games)

/-! ## The aggregate data model (`ns2-stat/src/lib.rs`) -/

/-- `Stat<T>`: one counter split into total/marines/aliens. -/
structure Stat (T : Type) where
  total : T
  marines : T
  aliens : T
deriving DecidableEq, Repr

/-- `Stat::add`: add `n` to `total` and to the field of `team`.  The Rust
method is generic over `T: AddAssign`; the addition operation is passed
explicitly (`Nat.add` for the `u32` instances, `fadd32` for the `f32`
instance). -/
def Stat.add {T : Type} (op : T → T → T) (s : Stat T) (team : Team) (n : T) : Stat T :=
  { total := op s.total n
    marines := match team with
      | .Marines => op s.marines n
      | .Aliens => s.marines
    aliens := match team with
      | .Aliens => op s.aliens n
      | .Marines => s.aliens }

/-- `User` (per-player aggregate). -/
structure User where
  games : Stat ℕ
  commander : Stat ℕ
  wins : Stat ℕ
  kills : Stat ℕ
  assists : Stat ℕ
  deaths : Stat ℕ
  score : Stat F32
  hits : Stat ℕ
  misses : Stat ℕ
deriving DecidableEq, Repr

/-- `User::default()`: all counters zero. -/
def User.default : User :=
  { games := ⟨0, 0, 0⟩, commander := ⟨0, 0, 0⟩, wins := ⟨0, 0, 0⟩
    kills := ⟨0, 0, 0⟩, assists := ⟨0, 0, 0⟩, deaths := ⟨0, 0, 0⟩
    score := ⟨0, 0, 0⟩, hits := ⟨0, 0, 0⟩, misses := ⟨0, 0, 0⟩ }

/-- `Map` (per-map aggregate). -/
structure Map where
  total_games : ℕ
  marine_wins : ℕ
  alien_wins : ℕ
deriving DecidableEq, Repr

/-- `Map::default()`. -/
def Map.default : Map := ⟨0, 0, 0⟩

/-- `NS2Stats` (the aggregate snapshot).  The two `HashMap<String, _>`s are
modelled as association lists in first-insertion order. -/
structure NS2Stats where
  latest_game : ℕ
  users : List (String × User)
  maps : List (String × Map)
  total_games : ℕ
  marine_wins : ℕ
  alien_wins : ℕ
deriving DecidableEq, Repr

/-! ## Association-list primitives (model of the `HashMap` operations used) -/

/-- `HashMap::get`: the value at the first occurrence of `key`. -/
def lookupKV {β : Type} : List (String × β) → String → Option β
  | [], _ => none
  | (k, v) :: rest, key => if k = key then some v else lookupKV rest key

/-- `HashMap::get_mut` + `entry(..).or_insert_with(default)` followed by a
mutation `f`: update the entry at `key` if present, otherwise append
`(key, f d)`. -/
def upsertKV {β : Type} (l : List (String × β)) (key : String) (d : β) (f : β → β) :
    List (String × β) :=
  match l with
  | [] => [(key, f d)]
  | (k, v) :: rest =>
    if k = key then (k, f v) :: rest else (k, v) :: upsertKV rest key d f

/-- `if let Some(v) = map.get_mut(key) { f(v) }`: update the entry at `key`
only if present. -/
def updateKV {β : Type} (l : List (String × β)) (key : String) (f : β → β) :
    List (String × β) :=
  match l with
  | [] => []
  | (k, v) :: rest =>
    if k = key then (k, f v) :: rest else (k, v) :: updateKV rest key f

/-! ## The aggregation engine (`NS2Stats::compute`) -/

/-- The attribution side of a player: marines iff
`marines.time_played > aliens.time_played` (the comparison on line 141 of
`ns2-stat/src/lib.rs`). -/
def attributionSide (player : PlayerStat) : Team :=
  if player.aliens.time_played < player.marines.time_played then .Marines else .Aliens

/-- The stats object of the attribution side. -/
def attributionStats (player : PlayerStat) : PlayerTeamStats :=
  match attributionSide player with
  | .Marines => player.marines
  | .Aliens => player.aliens

/-- The per-player body of the loop in `NS2Stats::compute` (lines 141–160):
a win increment on the attribution side when that side won, then the
games/kills/assists/deaths/score/hits/misses increments, all on the
attribution side. -/
def updateUserForPlayer (game : GameStats) (player : PlayerStat) (u : User) : User :=
  let team := attributionSide player
  let stats := attributionStats player
  let u1 :=
    match team with
    | .Marines =>
      if game.round_info.winning_team = WinningTeam.Marines then
        { u with wins := u.wins.add Nat.add Team.Marines 1 }
      else u
    | .Aliens =>
      if game.round_info.winning_team = WinningTeam.Aliens then
        { u with wins := u.wins.add Nat.add Team.Aliens 1 }
      else u
  { u1 with
    games := u1.games.add Nat.add team 1
    kills := u1.kills.add Nat.add team stats.kills
    assists := u1.assists.add Nat.add team stats.assists
    deaths := u1.deaths.add Nat.add team stats.deaths
    score := u1.score.add fadd32 team
      (fdiv32 (u32ToF32 stats.score) game.round_info.round_length)
    hits := u1.hits.add Nat.add team stats.hits
    misses := u1.misses.add Nat.add team stats.misses }

/-- The per-player loop of `NS2Stats::compute` over `player_stats.values()`. -/
def processPlayers (game : GameStats) (users : List (String × User)) :
    List (String × User) :=
  game.player_stats.foldl
    (fun us player => upsertKV us player.player_name User.default (updateUserForPlayer game player))
    users

/-- The sort key used by `get_commander`:
`(commander_time * 1000.0) as u32`. -/
def commanderKey (team : Team) (player : PlayerStat) : ℕ :=
  match team with
  | .Marines => f32ToU32 (fmul32 player.marines.commander_time 1000)
  | .Aliens => f32ToU32 (fmul32 player.aliens.commander_time 1000)

/-- `Iterator::max_by_key`: the last element attaining the maximal key (Rust
returns the last of several equally-maximal elements). -/
def maxByKeyLast {α : Type} (key : α → ℕ) (l : List α) : Option α :=
  l.foldl
    (fun acc x =>
      match acc with
      | none => some x
      | some a => if key a ≤ key x then some x else some a)
    none

/-- `get_commander`: name of the player with maximal
`(commander_time * 1000.0) as u32` on the given side. -/
def get_commander (team : Team) (players : List PlayerStat) : Option String :=
  (maxByKeyLast (commanderKey team) players).map (·.player_name)

/-- The per-map update of `NS2Stats::compute` (lines 175–186, the part acting
on the map entry). -/
def updateMapForGame (game : GameStats) (m : Map) : Map :=
  let m1 := { m with total_games := m.total_games + 1 }
  match game.round_info.winning_team with
  | .Marines => { m1 with marine_wins := m1.marine_wins + 1 }
  | .Aliens => { m1 with alien_wins := m1.alien_wins + 1 }
  | .NoneW => m1

/-- The per-game body of the loop in `NS2Stats::compute`: the per-player
loop, the two commander updates, the map update, the global win counters, the
running maximum of `round_date` and the game counter. -/
def processGame (s : NS2Stats) (game : GameStats) : NS2Stats :=
  let users1 := processPlayers game s.users
  let marine_commander := (get_commander .Marines game.player_stats).getD ""
  let users2 := updateKV users1 marine_commander
    (fun u => { u with commander := u.commander.add Nat.add Team.Marines 1 })
  let alien_commander := (get_commander .Aliens game.player_stats).getD ""
  let users3 := updateKV users2 alien_commander
    (fun u => { u with commander := u.commander.add Nat.add Team.Aliens 1 })
  { latest_game :=
      if s.latest_game < game.round_info.round_date then game.round_info.round_date
      else s.latest_game
    users := users3
    maps := upsertKV s.maps game.round_info.map_name Map.default (updateMapForGame game)
    total_games := s.total_games + 1
    marine_wins :=
      s.marine_wins + (if game.round_info.winning_team = WinningTeam.Marines then 1 else 0)
    alien_wins :=
      s.alien_wins + (if game.round_info.winning_team = WinningTeam.Aliens then 1 else 0) }

/-- `NS2Stats::compute`: fold the per-game update over the match sequence,
starting from the all-zero snapshot. -/
def NS2Stats.compute (games : List GameStats) : NS2Stats :=
  games.foldl processGame
    { latest_game := 0, users := [], maps := [], total_games := 0
      marine_wins := 0, alien_wins := 0 }

/-! ## The team balancer (`balanced_partitioning` in `ns2-stat-cli/src/teams.rs`) -/

/-- `abs_diff` from `teams.rs`: absolute difference of two `usize`s. -/
def absDiff (a b : ℕ) : ℕ := if a < b then b - a else a - b

/-- Fuel-bounded population count (the fuel plays the role of the fixed
64-bit width of `usize`; the masks of the balancer always fit). -/
def countOnesAux : ℕ → ℕ → ℕ
  | 0, _ => 0
  | f + 1, p => if p = 0 then 0 else p % 2 + countOnesAux f (p / 2)

/-- `usize::count_ones`: number of set bits.  The recursion stops as soon as
the argument reaches 0, so fuel `p` (an upper bound on the bit length of `p`)
makes the function total and exact for every natural number. -/
def countOnes (p : ℕ) : ℕ := countOnesAux p p

/-- Stable insertion into a list sorted by `key`: the new element `x` (which
originally precedes every element of the list) goes before all elements of
equal key. -/
def insertByKey {α : Type} (key : α → ℕ) (x : α) : List α → List α
  | [] => [x]
  | y :: ys => if key x ≤ key y then x :: y :: ys else y :: insertByKey key x ys

/-- Stable sort by a `ℕ`-valued key, ascending — the behaviour of Rust's
(stable) `slice::sort_by_key`.  Any two stable sorts agree, so insertion sort
reproduces the Rust result exactly. -/
def sortByKey {α : Type} (key : α → ℕ) : List α → List α
  | [] => []
  | x :: xs => insertByKey key x (sortByKey key xs)

/-- The inner mask loop of `balanced_partitioning`: add `player_score` to the
running sum of every mask whose bit `i` is 0, subtract it otherwise (the
`+=`/`-=` are `f32` operations). -/
def addPlayerScore (i : ℕ) (player_score : F32) (ts : List (ℕ × F32)) : List (ℕ × F32) :=
  ts.map fun pe =>
    if pe.1.testBit i then (pe.1, fsub32 pe.2 player_score)
    else (pe.1, fadd32 pe.2 player_score)

/-- The `total_scores` table of `balanced_partitioning`: one `(mask, sum)`
entry per mask in `0..2^(n-1)`, folded over the enumerated players. -/
def totalScores (players : List String) (score : String → F32) : List (ℕ × F32) :=
  players.enum.foldl
    (fun ts ip => addPlayerScore ip.1 (score ip.2) ts)
    ((List.range (2 ^ (players.length - 1))).map fun p => (p, 0))

/-- The sort key of `balanced_partitioning`:
`(score.abs() * 1000.0) as u32`. -/
def imbalanceKey (pe : ℕ × F32) : ℕ :=
  f32ToU32 (fmul32 (if pe.2 < 0 then -pe.2 else pe.2) 1000)

/-- The final mapping of `balanced_partitioning`: split the enumerated
players of a mask into the two teams (bit 0 → team 1, bit 1 → team 2,
pushed in index order). -/
def buildTeams (players : List String) (p : ℕ) : List String × List String :=
  players.enum.foldl
    (fun t ip =>
      if p.testBit ip.1 then (t.1, t.2 ++ [ip.2]) else (t.1 ++ [ip.2], t.2))
    ([], [])

/-- `balanced_partitioning`.  The Rust function starts with
`1 << (players.len() - 1)`; for an empty roster the `usize` subtraction
underflows, which panics in debug builds (and in release builds the wrapped
shift makes the subsequent `Vec` allocation abort), so the empty-roster case
is modelled as `none`.  For a nonempty roster the function is total and the
lazily produced suggestion sequence is modelled as the full list. -/
def balanced_partitioning (players : List String) (score : String → F32) :
    Option (List (List String × List String)) :=
  if players = [] then none
  else
    some
      ((((sortByKey imbalanceKey (totalScores players score)).map Prod.fst).filter
          fun p => decide (absDiff players.length (2 * countOnes p) ≤ 1)).map
        (buildTeams players))

/-- First suggestion of the balancer, when the roster is nonempty and at
least one mask passes the size filter. -/
def firstAssignment (players : List String) (score : String → F32) :
    Option (List String × List String) :=
  (balanced_partitioning players score).bind List.head?

/-! ## The snapshot merge operation

The API binary (`ns2-stat-api/src/main.rs`, handler `post_game`) merges a
single-match snapshot into the running snapshot via `data.stats.merge(stats)`
using a `Merge` implementation of the `ns2_stat` crate whose source is not
part of the repository snapshot; it is modelled here from the
specification. -/

/-- Modelled from the spec: field-wise sum of a `Stat<T>` (the `Merge`
implementation for `NS2Stats` is absent from the sources; §4.2 prescribes
"field-wise sum of all counters"). -/
def statMerge {T : Type} (op : T → T → T) (a b : Stat T) : Stat T :=
  ⟨op a.total b.total, op a.marines b.marines, op a.aliens b.aliens⟩

/-- Modelled from the spec: field-wise sum of two per-player aggregates
(integer counters summed, the `f32` score summed with `f32` addition). -/
def User.merge (a b : User) : User :=
  { games := statMerge Nat.add a.games b.games
    commander := statMerge Nat.add a.commander b.commander
    wins := statMerge Nat.add a.wins b.wins
    kills := statMerge Nat.add a.kills b.kills
    assists := statMerge Nat.add a.assists b.assists
    deaths := statMerge Nat.add a.deaths b.deaths
    score := statMerge fadd32 a.score b.score
    hits := statMerge Nat.add a.hits b.hits
    misses := statMerge Nat.add a.misses b.misses }

/-- Modelled from the spec: field-wise sum of two per-map aggregates. -/
def Map.merge (a b : Map) : Map :=
  ⟨a.total_games + b.total_games, a.marine_wins + b.marine_wins,
    a.alien_wins + b.alien_wins⟩

/-- Remove the first entry with the given key. -/
def eraseKV {β : Type} : List (String × β) → String → List (String × β)
  | [], _ => []
  | (k, v) :: rest, key => if k = key then rest else (k, v) :: eraseKV rest key

/-- Modelled from the spec: key-wise union of two association maps, combining
values present on both sides and keeping a value untouched when its key is
missing on the other side (§4.2: "players and maps merged by key, union of
keysets; missing key on one side treated as a zero-valued aggregate" — and
combining with the zero aggregate is the identity on every counter). -/
def mergeKV {β : Type} (c : β → β → β) : List (String × β) → List (String × β) →
    List (String × β)
  | [], b => b
  | (k, v) :: rest, b =>
    match lookupKV b k with
    | some w => (k, c v w) :: mergeKV c rest (eraseKV b k)
    | none => (k, v) :: mergeKV c rest b

/-- Modelled from the spec: `merge` of two aggregate snapshots — field-wise
sums, key-wise union of the user and map tables, and
`latest_game = max(a.latest_game, b.latest_game)` (§4.2). -/
def NS2Stats.merge (a b : NS2Stats) : NS2Stats :=
  { latest_game := max a.latest_game b.latest_game
    users := mergeKV User.merge a.users b.users
    maps := mergeKV Map.merge a.maps b.maps
    total_games := a.total_games + b.total_games
    marine_wins := a.marine_wins + b.marine_wins
    alien_wins := a.alien_wins + b.alien_wins }

/-! ## The skill ranker's power iteration

The Skill Ranker component (spec §4.4) has no source under the repository
snapshot; its power-iteration control flow is modelled from the
specification. -/

/-- Modelled from the spec: the distinct failure the ranker reports when
power iteration does not converge within the iteration cap (§7,
"RankingUndefined"). -/
inductive RankError where
  | rankingUndefined
deriving DecidableEq, Repr

/-- Modelled from the spec: the power-iteration loop of the Skill Ranker
(§4.4 step 5).  `step` is one multiply-and-renormalize pass, `change`
measures the difference between consecutive iterates, `threshold` is the
convergence threshold and the fuel is the iteration cap.  The loop returns
the converged vector, or the distinct `rankingUndefined` failure when the cap
is exhausted before the change drops below the threshold. -/
def powerIterate {V : Type} (step : V → V) (change : V → V → ℚ) (threshold : ℚ) :
    ℕ → V → Except RankError V
  | 0, _ => .error .rankingUndefined
  | cap + 1, v =>
    let w := step v
    if change v w < threshold then .ok w
    else powerIterate step change threshold cap w

/-! ## Derived notions used by the statements -/

/-- The per-player aggregate that a snapshot records for `name` (the all-zero
default if the player never occurs). -/
def getUser (s : NS2Stats) (name : String) : User :=
  (lookupKV s.users name).getD User.default

/-- The score contributions of the player called `name` in one match: one
entry per `player_stats` record carrying that name, each worth the
attribution side's round score divided by the round length (in `f32`
arithmetic), in iteration order — exactly the quantities that line 158 of
`ns2-stat/src/lib.rs` adds to the score aggregate. -/
def scoreContrib (name : String) (game : GameStats) : List F32 :=
  (game.player_stats.filter fun player => player.player_name = name).map
    fun player =>
      fdiv32 (u32ToF32 (attributionStats player).score) game.round_info.round_length

/-- All score contributions of `name` over a match sequence, in processing
order. -/
def scoreContribs (name : String) (games : List GameStats) : List F32 :=
  (games.map (scoreContrib name)).flatten

/-- Agreement of two per-player aggregates on every integer-valued counter
(everything except the `f32` score). -/
def UserIntEq (u v : User) : Prop :=
  u.games = v.games ∧ u.commander = v.commander ∧ u.wins = v.wins ∧
  u.kills = v.kills ∧ u.assists = v.assists ∧ u.deaths = v.deaths ∧
  u.hits = v.hits ∧ u.misses = v.misses

/-- Pointwise agreement of two user tables: same keys in the same order, and
the aggregates agree on every integer counter. -/
def UsersRel (a b : List (String × User)) : Prop :=
  List.Forall₂ (fun x y => x.1 = y.1 ∧ UserIntEq x.2 y.2) a b

/-- Agreement of two snapshots on every field except the `f32` score
counters: equal date/game/win counters, equal map tables and pointwise
integer-level agreement of the user tables. -/
def SnapRel (a b : NS2Stats) : Prop :=
  a.latest_game = b.latest_game ∧ a.total_games = b.total_games ∧
  a.marine_wins = b.marine_wins ∧ a.alien_wins = b.alien_wins ∧
  a.maps = b.maps ∧ UsersRel a.users b.users

/-! ## Concrete inputs used by witnesses and counterexamples -/

/-- All-zero per-side counters. -/
def pts0 : PlayerTeamStats := ⟨0, 0, 0, 0, 0, 0, 0, 0⟩

/-- One match: player `"A"` on marines with round score `2^24 = 16777216`
and `round_length = 1`. -/
def gHighScore : GameStats :=
  ⟨[⟨{ pts0 with score := 16777216, time_played := 1 }, pts0, "A"⟩],
    ⟨1, .NoneW, 1, "m"⟩⟩

/-- One match: player `"A"` on aliens with round score `1` and
`round_length = 1`. -/
def gOneAlien : GameStats :=
  ⟨[⟨pts0, { pts0 with score := 1, time_played := 1 }, "A"⟩],
    ⟨2, .NoneW, 1, "m"⟩⟩

/-- One match whose only player is called `""` (the empty string is a
legitimate display name). -/
def gBlankName : GameStats :=
  ⟨[⟨{ pts0 with time_played := 1 }, pts0, ""⟩], ⟨1, .NoneW, 1, "m"⟩⟩

/-- One match with an empty `player_stats` table. -/
def gNoPlayers : GameStats := ⟨[], ⟨2, .NoneW, 1, "m"⟩⟩

/-- One match: player `"B"` with 3 kills recorded on the marine side and 2
kills recorded on the alien side, attributed to marines
(`time_played` 2 vs 1). -/
def gBothSides : GameStats :=
  ⟨[⟨{ pts0 with kills := 3, time_played := 2 },
      { pts0 with kills := 2, time_played := 1 }, "B"⟩],
    ⟨1, .NoneW, 1, "m"⟩⟩

/-- A genuine match: 3 marines and 3 aliens with nonzero time played and
`round_length = 600`. -/
def gGenuine : GameStats :=
  ⟨[⟨{ pts0 with time_played := 500 }, pts0, "m1"⟩,
    ⟨{ pts0 with time_played := 500 }, pts0, "m2"⟩,
    ⟨{ pts0 with time_played := 500 }, pts0, "m3"⟩,
    ⟨pts0, { pts0 with time_played := 500 }, "a1"⟩,
    ⟨pts0, { pts0 with time_played := 500 }, "a2"⟩,
    ⟨pts0, { pts0 with time_played := 500 }, "a3"⟩],
    ⟨3, .Marines, 600, "m"⟩⟩

/-- The roster of the spec's balancer scenario (§8). -/
def players4 : List String := ["p0", "p1", "p2", "p3"]

/-- The score function of the spec's balancer scenario: scores
`[10, 10, -10, -10]`. -/
def score4 : String → F32 :=
  fun s => if s = "p0" then 10 else if s = "p1" then 10 else -10

/-- Conservation of one integer counter: `total = marines + aliens`. -/
def StatConserved (s : Stat ℕ) : Prop := s.total = s.marines + s.aliens

/-- Conservation of every integer-valued counter of a user aggregate (the
`f32` score is deliberately not included). -/
def UserConserved (u : User) : Prop :=
  StatConserved u.games ∧ StatConserved u.commander ∧ StatConserved u.wins ∧
  StatConserved u.kills ∧ StatConserved u.assists ∧ StatConserved u.deaths ∧
  StatConserved u.hits ∧ StatConserved u.misses

/-! ## Theorems

The rational-arithmetic primitives are made semireducible so that concrete
instances can be settled by kernel evaluation. -/

attribute [local semireducible] Rat.add Rat.mul Rat.inv Rat.sub Rat.ofScientific

/-- C7: computing an aggregate snapshot over the empty match sequence is not
an error — `NS2Stats.compute` is total and yields the snapshot with empty
user and map tables and all-zero counters (`latest_game = 0`,
`total_games = marine_wins = alien_wins = 0`). -/
theorem compute_empty_snapshot :
    NS2Stats.compute [] =
      { latest_game := 0, users := [], maps := [], total_games := 0
        marine_wins := 0, alien_wins := 0 } := rfl

/-- C8 (evaluation at the failing input): the balancer applied to the empty
roster does not run to completion — `1 << (players.len() - 1)` underflows and
the call panics (debug) or aborts on the wrapped allocation (release),
modelled by the `none` result. -/
theorem balanced_partitioning_empty_roster :
    balanced_partitioning [] (fun _ => 0) = none := rfl

/-- C4: `genuine` retains a match exactly when its `round_length` is at
least 300 seconds and both the marine and the alien count of players with
nonzero time played are strictly greater than 2; in particular a match with
no players is always excluded (and the filter is a total function — no
error). -/
theorem genuine_iff (games : List GameStats) (g : GameStats) :
    (g ∈ genuine games ↔
      g ∈ games ∧ 300 ≤ g.round_info.round_length ∧
        2 < marineCount g ∧ 2 < alienCount g) ∧
    (g.player_stats = [] → g ∉ genuine games) := by
  have hiff : g ∈ genuine games ↔
      g ∈ games ∧ 300 ≤ g.round_info.round_length ∧
        2 < marineCount g ∧ 2 < alienCount g := by
    simp only [genuine, filter_bot_games, filter_by_length, List.mem_filter,
      Bool.and_eq_true, decide_eq_true_eq]
    tauto
  refine ⟨hiff, fun hempty hmem => ?_⟩
  have h := (hiff.mp hmem).2.2.1
  rw [marineCount, hempty] at h
  simp at h

/-- C4 witness: a match with no players is excluded by the genuine filter. -/
theorem genuine_iff_witness : gNoPlayers ∉ genuine [gNoPlayers] :=
  (genuine_iff [gNoPlayers] gNoPlayers).2 rfl

/-- C1 (amended): the per-player accumulation of `NS2Stats::compute` adds
only the attribution side's stats object — each of
kills/assists/deaths/score/hits/misses is accumulated by `Stat::add` on the
attribution side (which adds to `total` and to that side's field and leaves
the other side's field unchanged); the non-attribution side's numbers do not
enter the aggregate. -/
theorem updateUser_attribution_only (game : GameStats) (player : PlayerStat) (u : User) :
    (updateUserForPlayer game player u).kills
        = u.kills.add Nat.add (attributionSide player) (attributionStats player).kills ∧
    (updateUserForPlayer game player u).assists
        = u.assists.add Nat.add (attributionSide player) (attributionStats player).assists ∧
    (updateUserForPlayer game player u).deaths
        = u.deaths.add Nat.add (attributionSide player) (attributionStats player).deaths ∧
    (updateUserForPlayer game player u).hits
        = u.hits.add Nat.add (attributionSide player) (attributionStats player).hits ∧
    (updateUserForPlayer game player u).misses
        = u.misses.add Nat.add (attributionSide player) (attributionStats player).misses ∧
    (updateUserForPlayer game player u).score
        = u.score.add fadd32 (attributionSide player)
            (fdiv32 (u32ToF32 (attributionStats player).score)
              game.round_info.round_length) := by
  unfold updateUserForPlayer
  cases h : attributionSide player <;> simp only [h] <;> split <;>
    exact ⟨rfl, rfl, rfl, rfl, rfl, rfl⟩

set_option maxRecDepth 8000 in
/-- C1 counterexample: a player recorded with 3 kills on the marine side and
2 on the alien side, attributed to marines, ends with kill aggregate
`⟨3, 3, 0⟩` — the alien-side kills are not accumulated, so the total is 3,
not 5, and the aliens field is 0, not 2, contradicting the claim that both
recorded sides are accumulated. -/
theorem compute_single_side_counterexample :
    (getUser (NS2Stats.compute [gBothSides]) "B").kills = ⟨3, 3, 0⟩ ∧
    (getUser (NS2Stats.compute [gBothSides]) "B").kills ≠ ⟨5, 3, 2⟩ := by decide

set_option maxRecDepth 8000 in
/-- C2 counterexample: after three matches whose score rates are
`2^24`, `1`, `1` (marine, alien, alien), the `f32` score aggregate of the
player is `⟨16777216, 16777216, 2⟩`: rounding absorbs the two alien
additions into the total, so `total ≠ marines + aliens` for the score
field. -/
theorem score_total_rounding_counterexample :
    (getUser (NS2Stats.compute [gHighScore, gOneAlien, gOneAlien]) "A").score.total ≠
      (getUser (NS2Stats.compute [gHighScore, gOneAlien, gOneAlien]) "A").score.marines +
      (getUser (NS2Stats.compute [gHighScore, gOneAlien, gOneAlien]) "A").score.aliens := by
  decide

set_option maxRecDepth 8000 in
/-- C3 counterexample: merging per-part snapshots is not numerically
identical to recomputing.  First conjunct: the `f32` score total differs
(recomputation folds `2^24 + 1 + 1` to `2^24`, the merge adds `2^24 + 2` to
`2^24 + 2`).  Second conjunct: a match with an empty `player_stats` table
increments the commander counters of a user named `""` coming from the other
part when recomputing (the `unwrap_or_default` lookup), but not when the
parts are computed separately and merged. -/
theorem merge_not_identical_counterexample :
    ((getUser (NS2Stats.compute ([gHighScore] ++ [gOneAlien, gOneAlien])) "A").score.total ≠
      (getUser ((NS2Stats.compute [gHighScore]).merge
        (NS2Stats.compute [gOneAlien, gOneAlien])) "A").score.total) ∧
    ((getUser (NS2Stats.compute ([gBlankName] ++ [gNoPlayers])) "").commander ≠
      (getUser ((NS2Stats.compute [gBlankName]).merge
        (NS2Stats.compute [gNoPlayers])) "").commander) := by
  decide

set_option maxRecDepth 8000 in
/-- C6 counterexample: on roster `[p0, p1, p2, p3]` with scores
`[10, 10, -10, -10]` the first assignment produced by the balancer is
`{p1, p3}` vs `{p0, p2}` — not the split `{p0, p1}` vs `{p2, p3}` named by
the spec (whose group sums are `+20` and `-20`, i.e. imbalance 40, the worst
of the admissible splits). -/
theorem balancer_scenario_counterexample :
    firstAssignment players4 score4 = some (["p1", "p3"], ["p0", "p2"]) ∧
    firstAssignment players4 score4 ≠ some (["p0", "p1"], ["p2", "p3"]) ∧
    firstAssignment players4 score4 ≠ some (["p2", "p3"], ["p0", "p1"]) := by decide

set_option maxRecDepth 8000 in
/-- C6 (amended): the top-ranked candidate for the scenario roster is the
zero-imbalance split `{p1, p3}` vs `{p0, p2}` — both groups sum to zero
(in `f32` arithmetic), so it attains imbalance 0. -/
theorem balancer_scenario_first :
    firstAssignment players4 score4 = some (["p1", "p3"], ["p0", "p2"]) ∧
    fadd32 (score4 "p1") (score4 "p3") = 0 ∧
    fadd32 (score4 "p0") (score4 "p2") = 0 := by decide

/-- C9: when every iterate within the cap fails the convergence threshold,
the power iteration reports the distinct `rankingUndefined` failure — it
never returns a partially-converged vector. -/
theorem powerIterate_cap_error {V : Type} (step : V → V) (change : V → V → ℚ)
    (threshold : ℚ) (cap : ℕ) (v : V)
    (h : ∀ k < cap, ¬ change (step^[k] v) (step^[k + 1] v) < threshold) :
    powerIterate step change threshold cap v = .error .rankingUndefined := by
  induction cap generalizing v with
  | zero => rfl
  | succ n ih =>
    have h0 : ¬ change v (step v) < threshold := by
      simpa using h 0 (Nat.succ_pos n)
    rw [powerIterate, if_neg h0]
    exact ih (step v) fun k hk => by
      simpa [Function.iterate_succ_apply] using h (k + 1) (Nat.succ_lt_succ hk)

/-- C9 witness: a step function whose change measure is constantly `1`
against threshold `1/2` exhausts a cap of 3 and yields the failure. -/
theorem powerIterate_cap_error_witness :
    powerIterate (fun x : ℚ => x + 1) (fun _ _ => 1) (1 / 2) 3 0 =
      .error .rankingUndefined :=
  powerIterate_cap_error _ _ _ _ _ (fun k _ => by decide)

/-! ### Field characterizations of the per-player update -/

theorem updateUser_games (game : GameStats) (player : PlayerStat) (u : User) :
    (updateUserForPlayer game player u).games
      = u.games.add Nat.add (attributionSide player) 1 := by
  unfold updateUserForPlayer
  cases h : attributionSide player <;> simp only [h] <;> split <;> rfl

theorem updateUser_commander (game : GameStats) (player : PlayerStat) (u : User) :
    (updateUserForPlayer game player u).commander = u.commander := by
  unfold updateUserForPlayer
  cases h : attributionSide player <;> simp only [h] <;> split <;> rfl

theorem updateUser_score (game : GameStats) (player : PlayerStat) (u : User) :
    (updateUserForPlayer game player u).score
      = u.score.add fadd32 (attributionSide player)
          (fdiv32 (u32ToF32 (attributionStats player).score)
            game.round_info.round_length) := by
  unfold updateUserForPlayer
  cases h : attributionSide player <;> simp only [h] <;> split <;> rfl

/-- The `Stat::add` operation on `ℕ` preserves conservation. -/
theorem StatConserved.add {s : Stat ℕ} (h : StatConserved s) (team : Team) (n : ℕ) :
    StatConserved (s.add Nat.add team n) := by
  cases team <;> simp only [Stat.add, StatConserved, Nat.add_eq] at h ⊢ <;> omega

theorem userConserved_default : UserConserved User.default :=
  ⟨rfl, rfl, rfl, rfl, rfl, rfl, rfl, rfl⟩

theorem userConserved_update (game : GameStats) (player : PlayerStat) {u : User}
    (h : UserConserved u) : UserConserved (updateUserForPlayer game player u) := by
  obtain ⟨h1, h2, h3, h4, h5, h6, h7, h8⟩ := h
  unfold updateUserForPlayer
  cases ht : attributionSide player <;> simp only [ht] <;> split <;>
    first
      | exact ⟨h1.add _ _, h2, h3.add _ _, h4.add _ _, h5.add _ _, h6.add _ _,
          h7.add _ _, h8.add _ _⟩
      | exact ⟨h1.add _ _, h2, h3, h4.add _ _, h5.add _ _, h6.add _ _,
          h7.add _ _, h8.add _ _⟩

theorem userConserved_commanderAdd (team : Team) {u : User} (h : UserConserved u) :
    UserConserved { u with commander := u.commander.add Nat.add team 1 } := by
  obtain ⟨h1, h2, h3, h4, h5, h6, h7, h8⟩ := h
  exact ⟨h1, StatConserved.add h2 _ _, h3, h4, h5, h6, h7, h8⟩

/-! ### Preservation of pointwise properties by the table operations -/

theorem upsertKV_forall {β : Type} {P : β → Prop} {l : List (String × β)} {k : String}
    {d : β} {f : β → β} (hl : ∀ kv ∈ l, P kv.2) (hf : ∀ v, P v → P (f v))
    (hfd : P (f d)) : ∀ kv ∈ upsertKV l k d f, P kv.2 := by
  induction l with
  | nil =>
    intro kv hkv
    simp only [upsertKV, List.mem_singleton] at hkv
    subst hkv; exact hfd
  | cons x rest ih =>
    intro kv hkv
    obtain ⟨xk, xv⟩ := x
    by_cases hx : xk = k
    · simp only [upsertKV, if_pos hx, List.mem_cons] at hkv
      rcases hkv with hkv | hkv
      · subst hkv; exact hf _ (hl _ (List.mem_cons_self _ _))
      · exact hl _ (List.mem_cons_of_mem _ hkv)
    · simp only [upsertKV, if_neg hx, List.mem_cons] at hkv
      rcases hkv with hkv | hkv
      · subst hkv; exact hl _ (List.mem_cons_self _ _)
      · exact ih (fun kv h => hl _ (List.mem_cons_of_mem _ h)) _ hkv

theorem updateKV_forall {β : Type} {P : β → Prop} (l : List (String × β)) (k : String)
    (f : β → β) (hl : ∀ kv ∈ l, P kv.2) (hf : ∀ v, P v → P (f v)) :
    ∀ kv ∈ updateKV l k f, P kv.2 := by
  induction l with
  | nil => intro kv hkv; simp [updateKV] at hkv
  | cons x rest ih =>
    intro kv hkv
    obtain ⟨xk, xv⟩ := x
    by_cases hx : xk = k
    · simp only [updateKV, if_pos hx, List.mem_cons] at hkv
      rcases hkv with hkv | hkv
      · subst hkv; exact hf _ (hl _ (List.mem_cons_self _ _))
      · exact hl _ (List.mem_cons_of_mem _ hkv)
    · simp only [updateKV, if_neg hx, List.mem_cons] at hkv
      rcases hkv with hkv | hkv
      · subst hkv; exact hl _ (List.mem_cons_self _ _)
      · exact ih (fun kv h => hl _ (List.mem_cons_of_mem _ h)) _ hkv

theorem processPlayers_conserved (game : GameStats) (players : List PlayerStat)
    (us : List (String × User)) (h : ∀ kv ∈ us, UserConserved kv.2) :
    ∀ kv ∈ players.foldl
      (fun us p => upsertKV us p.player_name User.default (updateUserForPlayer game p))
      us, UserConserved kv.2 := by
  induction players generalizing us with
  | nil => exact h
  | cons p rest ih =>
    exact ih _ (upsertKV_forall h (fun v hv => userConserved_update game p hv)
      (userConserved_update game p userConserved_default))

theorem processGame_conserved {s : NS2Stats} (game : GameStats)
    (h : ∀ kv ∈ s.users, UserConserved kv.2) :
    ∀ kv ∈ (processGame s game).users, UserConserved kv.2 := by
  have h1 := processPlayers_conserved game game.player_stats s.users h
  have h2 := updateKV_forall _ ((get_commander Team.Marines game.player_stats).getD "")
    (fun u => { u with commander := u.commander.add Nat.add Team.Marines 1 })
    h1 (fun v hv => userConserved_commanderAdd Team.Marines hv)
  have h3 := updateKV_forall _ ((get_commander Team.Aliens game.player_stats).getD "")
    (fun u => { u with commander := u.commander.add Nat.add Team.Aliens 1 })
    h2 (fun v hv => userConserved_commanderAdd Team.Aliens hv)
  exact h3

theorem foldl_processGame_conserved (games : List GameStats) (s : NS2Stats)
    (h : ∀ kv ∈ s.users, UserConserved kv.2) :
    ∀ kv ∈ (games.foldl processGame s).users, UserConserved kv.2 := by
  induction games generalizing s with
  | nil => exact h
  | cons g rest ih => exact ih _ (processGame_conserved g h)

theorem lookupKV_some_mem {β : Type} {l : List (String × β)} {k : String} {v : β}
    (h : lookupKV l k = some v) : (k, v) ∈ l := by
  induction l with
  | nil => simp [lookupKV] at h
  | cons x rest ih =>
    obtain ⟨xk, xv⟩ := x
    by_cases hx : xk = k
    · rw [lookupKV, if_pos hx] at h
      cases h; subst hx; exact List.mem_cons_self _ _
    · rw [lookupKV, if_neg hx] at h
      exact List.mem_cons_of_mem _ (ih h)

/-- C2 (amended): in every computed aggregate, every integer-valued
`Stat` field of every player — games, commander, wins, kills, assists,
deaths, hits and misses — satisfies `total = marines + aliens`, by
construction; the `f32` score field is excluded (see the counterexample). -/
theorem compute_int_stats_conserved (games : List GameStats) (name : String) :
    UserConserved (getUser (NS2Stats.compute games) name) := by
  unfold getUser
  cases h : lookupKV (NS2Stats.compute games).users name with
  | none => exact userConserved_default
  | some u =>
    exact foldl_processGame_conserved games _ (by intro kv hkv; simp at hkv) _
      (lookupKV_some_mem h)

/-! ### Lookup lemmas for the table operations -/

theorem lookupKV_upsertKV_self {β : Type} (l : List (String × β)) (k : String) (d : β)
    (f : β → β) : lookupKV (upsertKV l k d f) k = some (f ((lookupKV l k).getD d)) := by
  induction l with
  | nil => simp [upsertKV, lookupKV]
  | cons x rest ih =>
    obtain ⟨xk, xv⟩ := x
    by_cases hx : xk = k
    · simp [upsertKV, lookupKV, hx]
    · simp [upsertKV, lookupKV, hx, ih]

theorem lookupKV_upsertKV_ne {β : Type} (l : List (String × β)) (k : String) (d : β)
    (f : β → β) (key : String) (h : key ≠ k) :
    lookupKV (upsertKV l k d f) key = lookupKV l key := by
  have hk : ¬ k = key := fun hk => h hk.symm
  induction l with
  | nil => simp [upsertKV, lookupKV, hk]
  | cons x rest ih =>
    obtain ⟨xk, xv⟩ := x
    rw [upsertKV]
    by_cases hx : xk = k
    · have hxkey : ¬ xk = key := by rw [hx]; exact hk
      rw [if_pos hx, lookupKV, lookupKV, if_neg (hx ▸ hk), if_neg hxkey]
    · rw [if_neg hx, lookupKV, lookupKV]
      by_cases hxk : xk = key
      · rw [if_pos hxk, if_pos hxk]
      · rw [if_neg hxk, if_neg hxk, ih]

theorem lookupKV_updateKV_self {β : Type} (l : List (String × β)) (k : String)
    (f : β → β) : lookupKV (updateKV l k f) k = (lookupKV l k).map f := by
  induction l with
  | nil => simp [updateKV, lookupKV]
  | cons x rest ih =>
    obtain ⟨xk, xv⟩ := x
    by_cases hx : xk = k
    · simp [updateKV, lookupKV, hx]
    · simp [updateKV, lookupKV, hx, ih]

theorem lookupKV_updateKV_ne {β : Type} (l : List (String × β)) (k : String)
    (f : β → β) (key : String) (h : key ≠ k) :
    lookupKV (updateKV l k f) key = lookupKV l key := by
  have hk : ¬ k = key := fun hk => h hk.symm
  induction l with
  | nil => simp [updateKV]
  | cons x rest ih =>
    obtain ⟨xk, xv⟩ := x
    rw [updateKV]
    by_cases hx : xk = k
    · have hxkey : ¬ xk = key := by rw [hx]; exact hk
      rw [if_pos hx, lookupKV, lookupKV, if_neg (hx ▸ hk), if_neg hxkey]
    · rw [if_neg hx, lookupKV, lookupKV]
      by_cases hxk : xk = key
      · rw [if_pos hxk, if_pos hxk]
      · rw [if_neg hxk, if_neg hxk, ih]

/-- A value-preserving update leaves every looked-up score untouched. -/
theorem lookupKV_updateKV_getD_score (l : List (String × User)) (k : String)
    (f : User → User) (name : String) (hf : ∀ u, (f u).score = u.score) :
    ((lookupKV (updateKV l k f) name).getD User.default).score
      = ((lookupKV l name).getD User.default).score := by
  by_cases h : name = k
  · subst h
    rw [lookupKV_updateKV_self]
    cases lookupKV l name with
    | none => rfl
    | some u => exact hf u
  · rw [lookupKV_updateKV_ne _ _ _ _ h]

/-- Score accumulation along the per-player loop: the looked-up score total
after processing a list of player entries is the `f32` left-fold of the
per-entry contributions of the matching names over the initial total. -/
theorem foldl_upsert_score (game : GameStats) (players : List PlayerStat)
    (us : List (String × User)) (name : String) :
    ((lookupKV (players.foldl
        (fun us p => upsertKV us p.player_name User.default (updateUserForPlayer game p))
        us) name).getD User.default).score.total
      = List.foldl fadd32 (((lookupKV us name).getD User.default).score.total)
          ((players.filter fun p => p.player_name = name).map
            fun p => fdiv32 (u32ToF32 (attributionStats p).score)
              game.round_info.round_length) := by
  induction players generalizing us with
  | nil => rfl
  | cons p rest ih =>
    rw [List.foldl_cons, ih]
    by_cases hp : p.player_name = name
    · rw [List.filter_cons_of_pos (by simp [hp]), List.map_cons, List.foldl_cons]
      rw [hp, lookupKV_upsertKV_self, Option.getD_some, updateUser_score]
      rfl
    · rw [List.filter_cons_of_neg (by simp [hp]),
        lookupKV_upsertKV_ne _ _ _ _ _ (fun h => hp h.symm)]

/-- Score accumulation over one whole game: the commander updates do not
touch scores, so only the per-player loop contributes. -/
theorem processGame_score (s : NS2Stats) (game : GameStats) (name : String) :
    (getUser (processGame s game) name).score.total
      = List.foldl fadd32 ((getUser s name).score.total) (scoreContrib name game) := by
  show ((lookupKV (processGame s game).users name).getD User.default).score.total = _
  have h1 : (processGame s game).users
      = updateKV (updateKV (processPlayers game s.users)
          ((get_commander Team.Marines game.player_stats).getD "")
          (fun u => { u with commander := u.commander.add Nat.add Team.Marines 1 }))
        ((get_commander Team.Aliens game.player_stats).getD "")
        (fun u => { u with commander := u.commander.add Nat.add Team.Aliens 1 }) := rfl
  rw [h1,
    lookupKV_updateKV_getD_score _ _
      (fun u => { u with commander := u.commander.add Nat.add Team.Aliens 1 }) name
      (fun u => rfl),
    lookupKV_updateKV_getD_score _ _
      (fun u => { u with commander := u.commander.add Nat.add Team.Marines 1 }) name
      (fun u => rfl)]
  exact foldl_upsert_score game game.player_stats s.users name

/-- Score accumulation over a match sequence, generalized over the starting
snapshot. -/
theorem foldl_processGame_score (games : List GameStats) (s : NS2Stats) (name : String) :
    (getUser (games.foldl processGame s) name).score.total
      = List.foldl fadd32 ((getUser s name).score.total) (scoreContribs name games) := by
  induction games generalizing s with
  | nil => rfl
  | cons g rest ih =>
    have happ : scoreContribs name (g :: rest)
        = scoreContrib name g ++ scoreContribs name rest := by
      simp [scoreContribs]
    rw [List.foldl_cons, ih, processGame_score, happ, List.foldl_append]

/-! ### Generic association-table lemmas for the merge property -/

theorem kvrel_refl {β : Type} {R : β → β → Prop} (hR : ∀ b, R b b)
    (l : List (String × β)) :
    List.Forall₂ (fun a b => a.1 = b.1 ∧ R a.2 b.2) l l := by
  rw [List.forall₂_same]
  exact fun x _ => ⟨rfl, hR x.2⟩

theorem kvrel_trans {β : Type} {R : β → β → Prop}
    (hR : ∀ a b d, R a b → R b d → R a d) {l₁ l₂ l₃ : List (String × β)}
    (h12 : List.Forall₂ (fun a b => a.1 = b.1 ∧ R a.2 b.2) l₁ l₂)
    (h23 : List.Forall₂ (fun a b => a.1 = b.1 ∧ R a.2 b.2) l₂ l₃) :
    List.Forall₂ (fun a b => a.1 = b.1 ∧ R a.2 b.2) l₁ l₃ := by
  induction h12 generalizing l₃ with
  | nil => exact h23
  | cons h _ ih =>
    cases h23 with
    | cons h' t' => exact .cons ⟨h.1.trans h'.1, hR _ _ _ h.2 h'.2⟩ (ih t')

theorem kvrel_eq_iff {β : Type} {l₁ l₂ : List (String × β)} :
    List.Forall₂ (fun a b => a.1 = b.1 ∧ a.2 = b.2) l₁ l₂ ↔ l₁ = l₂ := by
  constructor
  · intro h
    induction h with
    | nil => rfl
    | cons h _ ih =>
      rw [ih, Prod.ext_iff.mpr h]
  · rintro rfl
    exact kvrel_refl (fun _ => rfl) _

theorem eraseKV_upsertKV_self {β : Type} (l : List (String × β)) (k : String) (d : β)
    (f : β → β) : eraseKV (upsertKV l k d f) k = eraseKV l k := by
  induction l with
  | nil => simp [upsertKV, eraseKV]
  | cons x rest ih =>
    obtain ⟨xk, xv⟩ := x
    by_cases hx : xk = k <;> simp [upsertKV, eraseKV, hx, ih]

theorem eraseKV_updateKV_self {β : Type} (l : List (String × β)) (k : String)
    (f : β → β) : eraseKV (updateKV l k f) k = eraseKV l k := by
  induction l with
  | nil => simp [updateKV, eraseKV]
  | cons x rest ih =>
    obtain ⟨xk, xv⟩ := x
    by_cases hx : xk = k <;> simp [updateKV, eraseKV, hx, ih]

theorem lookupKV_eraseKV_ne {β : Type} (l : List (String × β)) (k key : String)
    (h : key ≠ k) : lookupKV (eraseKV l k) key = lookupKV l key := by
  have hkkey : ¬ k = key := fun hk => h hk.symm
  induction l with
  | nil => rfl
  | cons x rest ih =>
    obtain ⟨xk, xv⟩ := x
    by_cases hx : xk = k
    · simp [eraseKV, lookupKV, hx, hkkey]
    · by_cases hxk : xk = key <;> simp [eraseKV, lookupKV, hx, hxk, h, ih]

theorem eraseKV_upsertKV_comm {β : Type} (l : List (String × β)) (k kx : String)
    (d : β) (f : β → β) (h : k ≠ kx) :
    eraseKV (upsertKV l k d f) kx = upsertKV (eraseKV l kx) k d f := by
  induction l with
  | nil => simp [upsertKV, eraseKV, h]
  | cons x rest ih =>
    obtain ⟨xk, xv⟩ := x
    have hkxk : ¬ kx = k := fun hk => h hk.symm
    by_cases hx : xk = k
    · simp [upsertKV, eraseKV, hx, h]
    · by_cases hxkx : xk = kx
      · simp [upsertKV, eraseKV, hx, hxkx, hkxk]
      · simp [upsertKV, eraseKV, hx, hxkx, ih]

theorem eraseKV_updateKV_comm {β : Type} (l : List (String × β)) (k kx : String)
    (f : β → β) (h : k ≠ kx) :
    eraseKV (updateKV l k f) kx = updateKV (eraseKV l kx) k f := by
  induction l with
  | nil => rfl
  | cons x rest ih =>
    obtain ⟨xk, xv⟩ := x
    have hkxk : ¬ kx = k := fun hk => h hk.symm
    by_cases hx : xk = k
    · simp [updateKV, eraseKV, hx, h]
    · by_cases hxkx : xk = kx
      · simp [updateKV, eraseKV, hx, hxkx, hkxk]
      · simp [updateKV, eraseKV, hx, hxkx, ih]

theorem eraseKV_of_lookup_none {β : Type} (l : List (String × β)) (k : String)
    (h : lookupKV l k = none) : eraseKV l k = l := by
  induction l with
  | nil => rfl
  | cons x rest ih =>
    obtain ⟨xk, xv⟩ := x
    rw [lookupKV] at h
    by_cases hx : xk = k
    · rw [if_pos hx] at h; cases h
    · rw [if_neg hx] at h
      simp [eraseKV, hx, ih h]

/-- Compatibility of the get-or-insert update with the key-wise merge: when
`f` adds a fixed delta (hypotheses `h1`, `h2`) the update can be performed on
the second operand of the merge instead of on the merged table, up to `R` on
the values. -/
theorem mergeKV_upsertKV {β : Type} (c : β → β → β) (R : β → β → Prop)
    (k : String) (d : β) (f : β → β) (hR : ∀ b, R b b)
    (h1 : ∀ a b, R (f (c a b)) (c a (f b))) (h2 : ∀ a, R (f a) (c a (f d)))
    (x : List (String × β)) :
    ∀ y, List.Forall₂ (fun a b => a.1 = b.1 ∧ R a.2 b.2)
      (upsertKV (mergeKV c x y) k d f) (mergeKV c x (upsertKV y k d f)) := by
  induction x with
  | nil => intro y; exact kvrel_refl hR _
  | cons xe xt ih =>
    intro y
    obtain ⟨kx, vx⟩ := xe
    by_cases hkx : kx = k
    · subst hkx
      cases hy : lookupKV y kx with
      | some w =>
        rw [mergeKV, hy, mergeKV, lookupKV_upsertKV_self, hy, Option.getD_some,
          eraseKV_upsertKV_self, upsertKV, if_pos rfl]
        exact .cons ⟨rfl, h1 vx w⟩ (kvrel_refl hR _)
      | none =>
        rw [mergeKV, hy, mergeKV, lookupKV_upsertKV_self, hy, Option.getD_none,
          eraseKV_upsertKV_self, eraseKV_of_lookup_none y kx hy, upsertKV, if_pos rfl]
        exact .cons ⟨rfl, h2 vx⟩ (kvrel_refl hR _)
    · have hkkx : k ≠ kx := fun h => hkx h.symm
      cases hy : lookupKV y kx with
      | some w =>
        rw [mergeKV, hy, mergeKV, lookupKV_upsertKV_ne y k d f kx hkx, hy,
          eraseKV_upsertKV_comm y k kx d f hkkx, upsertKV, if_neg hkx]
        exact .cons ⟨rfl, hR _⟩ (ih (eraseKV y kx))
      | none =>
        rw [mergeKV, hy, mergeKV, lookupKV_upsertKV_ne y k d f kx hkx, hy,
          upsertKV, if_neg hkx]
        exact .cons ⟨rfl, hR _⟩ (ih y)

/-- Compatibility of the update-if-present operation with the key-wise merge,
when the key is present in the second operand. -/
theorem mergeKV_updateKV {β : Type} (c : β → β → β) (R : β → β → Prop)
    (k : String) (f : β → β) (hR : ∀ b, R b b)
    (h1 : ∀ a b, R (f (c a b)) (c a (f b))) (x : List (String × β)) :
    ∀ y, (lookupKV y k).isSome →
      List.Forall₂ (fun a b => a.1 = b.1 ∧ R a.2 b.2)
        (updateKV (mergeKV c x y) k f) (mergeKV c x (updateKV y k f)) := by
  induction x with
  | nil => intro y _; exact kvrel_refl hR _
  | cons xe xt ih =>
    intro y hk
    obtain ⟨kx, vx⟩ := xe
    by_cases hkx : kx = k
    · subst hkx
      obtain ⟨w, hw⟩ := Option.isSome_iff_exists.mp hk
      rw [mergeKV, hw, mergeKV, lookupKV_updateKV_self, hw, Option.map_some',
        eraseKV_updateKV_self, updateKV, if_pos rfl]
      exact .cons ⟨rfl, h1 vx w⟩ (kvrel_refl hR _)
    · have hkkx : k ≠ kx := fun h => hkx h.symm
      cases hy : lookupKV y kx with
      | some w =>
        rw [mergeKV, hy, mergeKV, lookupKV_updateKV_ne y k f kx hkx, hy,
          eraseKV_updateKV_comm y k kx f hkkx, updateKV, if_neg hkx]
        refine .cons ⟨rfl, hR _⟩ (ih (eraseKV y kx) ?_)
        rw [lookupKV_eraseKV_ne y kx k hkkx]
        exact hk
      | none =>
        rw [mergeKV, hy, mergeKV, lookupKV_updateKV_ne y k f kx hkx, hy,
          updateKV, if_neg hkx]
        exact .cons ⟨rfl, hR _⟩ (ih y hk)

/-- The get-or-insert update is a congruence for the pointwise relation. -/
theorem upsertKV_congr {β : Type} {R : β → β → Prop} (k : String) (d : β)
    (f : β → β) (hR : ∀ b, R b b) (hf : ∀ a b, R a b → R (f a) (f b))
    {u v : List (String × β)}
    (h : List.Forall₂ (fun a b => a.1 = b.1 ∧ R a.2 b.2) u v) :
    List.Forall₂ (fun a b => a.1 = b.1 ∧ R a.2 b.2)
      (upsertKV u k d f) (upsertKV v k d f) := by
  induction h with
  | nil => exact .cons ⟨rfl, hR _⟩ .nil
  | @cons x y l₁ l₂ hxy t ih =>
    obtain ⟨xk, xv⟩ := x
    obtain ⟨yk, yv⟩ := y
    obtain ⟨hkey, hval⟩ := hxy
    dsimp only at hkey hval
    subst hkey
    by_cases hx : xk = k
    · simp only [upsertKV, if_pos hx]
      exact .cons ⟨rfl, hf _ _ hval⟩ t
    · simp only [upsertKV, if_neg hx]
      exact .cons ⟨rfl, hval⟩ ih

/-- The update-if-present operation is a congruence for the pointwise
relation. -/
theorem updateKV_congr {β : Type} {R : β → β → Prop} (k : String)
    (f : β → β) (hf : ∀ a b, R a b → R (f a) (f b))
    {u v : List (String × β)}
    (h : List.Forall₂ (fun a b => a.1 = b.1 ∧ R a.2 b.2) u v) :
    List.Forall₂ (fun a b => a.1 = b.1 ∧ R a.2 b.2)
      (updateKV u k f) (updateKV v k f) := by
  induction h with
  | nil => exact .nil
  | @cons x y l₁ l₂ hxy t ih =>
    obtain ⟨xk, xv⟩ := x
    obtain ⟨yk, yv⟩ := y
    obtain ⟨hkey, hval⟩ := hxy
    dsimp only at hkey hval
    subst hkey
    by_cases hx : xk = k
    · simp only [updateKV, if_pos hx]
      exact .cons ⟨rfl, hf _ _ hval⟩ t
    · simp only [updateKV, if_neg hx]
      exact .cons ⟨rfl, hval⟩ ih

/-- Presence of a key is preserved by get-or-insert updates. -/
theorem lookupKV_upsertKV_isSome {β : Type} (l : List (String × β)) (k key : String)
    (d : β) (f : β → β) (h : (lookupKV l key).isSome) :
    (lookupKV (upsertKV l k d f) key).isSome := by
  by_cases hk : key = k
  · subst hk; rw [lookupKV_upsertKV_self]; rfl
  · rw [lookupKV_upsertKV_ne l k d f key hk]; exact h

/-- Presence of a key is preserved by update-if-present. -/
theorem lookupKV_updateKV_isSome {β : Type} (l : List (String × β)) (k key : String)
    (f : β → β) (h : (lookupKV l key).isSome) :
    (lookupKV (updateKV l k f) key).isSome := by
  by_cases hk : key = k
  · subst hk
    rw [lookupKV_updateKV_self]
    obtain ⟨w, hw⟩ := Option.isSome_iff_exists.mp h
    rw [hw]; rfl
  · rw [lookupKV_updateKV_ne l k f key hk]; exact h

/-! ### The balancer: popcount, sorting and team-building lemmas -/

theorem countOnesAux_eq (f : ℕ) :
    ∀ p, p < 2 ^ f → countOnesAux f p = (List.range f).countP fun i => p.testBit i := by
  induction f with
  | zero =>
    intro p hp
    have : p = 0 := by omega
    subst this; rfl
  | succ f ih =>
    intro p hp
    rw [countOnesAux]
    by_cases h0 : p = 0
    · subst h0
      simp [List.countP_eq_zero]
    · have hdiv : p / 2 < 2 ^ f := by
        have h2 : 2 ^ (f + 1) = 2 ^ f * 2 := pow_succ 2 f
        omega
      rw [if_neg h0, ih (p / 2) hdiv, List.range_succ_eq_map, List.countP_cons,
        List.countP_map]
      have hcomp : ((fun i => p.testBit i) ∘ Nat.succ) = fun i => (p / 2).testBit i :=
        funext fun i => by simp [Function.comp, Nat.testBit_succ]
      rw [hcomp]
      rcases Nat.mod_two_eq_zero_or_one p with h | h
      · simp [h]
      · simp [h]
        omega

theorem countP_testBit_range_of_le (p a b : ℕ) (hab : a ≤ b) (h : p < 2 ^ a) :
    ((List.range b).countP fun i => p.testBit i)
      = (List.range a).countP fun i => p.testBit i := by
  rw [show b = a + (b - a) by omega, List.range_add, List.countP_append]
  have hzero : (((List.range (b - a)).map (a + ·)).countP fun i => p.testBit i) = 0 := by
    rw [List.countP_eq_zero]
    intro x hx
    obtain ⟨i, _, rfl⟩ := List.mem_map.mp hx
    have hlt : p < 2 ^ (a + i) :=
      lt_of_lt_of_le h (Nat.pow_le_pow_right (by omega) (by omega))
    simp [Nat.testBit_lt_two_pow hlt]
  omega

/-- `countOnes` counts exactly the bits below any width that bounds the
value. -/
theorem countOnes_eq_countP (p k : ℕ) (h : p < 2 ^ k) :
    countOnes p = (List.range k).countP fun i => p.testBit i := by
  have h1 : countOnes p = (List.range p).countP fun i => p.testBit i :=
    countOnesAux_eq p p (Nat.lt_two_pow p)
  rcases le_total p k with hk | hk
  · rw [h1, countP_testBit_range_of_le p p k hk (Nat.lt_two_pow p)]
  · rw [h1, ← countP_testBit_range_of_le p k p hk h]

theorem insertByKey_perm {α : Type} (key : α → ℕ) (x : α) (l : List α) :
    (insertByKey key x l).Perm (x :: l) := by
  induction l with
  | nil => exact List.Perm.refl _
  | cons y ys ih =>
    rw [insertByKey]
    by_cases h : key x ≤ key y
    · rw [if_pos h]
    · rw [if_neg h]
      exact (ih.cons y).trans (List.Perm.swap x y ys)

theorem sortByKey_perm {α : Type} (key : α → ℕ) (l : List α) :
    (sortByKey key l).Perm l := by
  induction l with
  | nil => exact List.Perm.refl _
  | cons x xs ih => exact (insertByKey_perm key x (sortByKey key xs)).trans (ih.cons x)

theorem addPlayerScore_map_fst (i : ℕ) (v : F32) (ts : List (ℕ × F32)) :
    (addPlayerScore i v ts).map Prod.fst = ts.map Prod.fst := by
  unfold addPlayerScore
  rw [List.map_map]
  apply List.map_congr_left
  intro pe _
  by_cases h : pe.1.testBit i <;> simp [h]

theorem totalScores_map_fst (players : List String) (score : String → F32) :
    (totalScores players score).map Prod.fst
      = List.range (2 ^ (players.length - 1)) := by
  unfold totalScores
  have haux : ∀ (l : List (ℕ × String)) (ts : List (ℕ × F32)),
      ((l.foldl (fun ts ip => addPlayerScore ip.1 (score ip.2) ts) ts).map Prod.fst)
        = ts.map Prod.fst := by
    intro l
    induction l with
    | nil => intro ts; rfl
    | cons ip rest ih =>
      intro ts
      rw [List.foldl_cons, ih, addPlayerScore_map_fst]
  rw [haux, List.map_map]
  exact List.map_id _

theorem buildTeams_aux (p : ℕ) (l : List (ℕ × String)) (t : List String × List String) :
    l.foldl (fun t ip =>
        if p.testBit ip.1 then (t.1, t.2 ++ [ip.2]) else (t.1 ++ [ip.2], t.2)) t
      = (t.1 ++ (l.filter fun ip => !(p.testBit ip.1)).map Prod.snd,
          t.2 ++ (l.filter fun ip => p.testBit ip.1).map Prod.snd) := by
  induction l generalizing t with
  | nil => simp
  | cons ip rest ih =>
    rw [List.foldl_cons]
    by_cases h : p.testBit ip.1
    · rw [if_pos h, ih]
      simp [List.filter_cons, h]
    · rw [if_neg h, ih]
      simp [List.filter_cons, h]

theorem buildTeams_eq (players : List String) (p : ℕ) :
    buildTeams players p
      = ((players.enum.filter fun ip => !(p.testBit ip.1)).map Prod.snd,
          (players.enum.filter fun ip => p.testBit ip.1).map Prod.snd) := by
  unfold buildTeams
  rw [buildTeams_aux]
  simp

/-- C5: every assignment returned by the balancer splits the roster into two
groups which together are a permutation of the roster (disjoint and
exhaustive: each roster entry lands in exactly one group) and whose sizes
differ by at most one. -/
theorem balanced_partitioning_partition (players : List String) (score : String → F32)
    (out : List (List String × List String)) (pr : List String × List String)
    (hout : balanced_partitioning players score = some out) (hpr : pr ∈ out) :
    (pr.1 ++ pr.2).Perm players ∧
    (pr.1.length : ℤ) - pr.2.length ≤ 1 ∧ (pr.2.length : ℤ) - pr.1.length ≤ 1 := by
  unfold balanced_partitioning at hout
  by_cases hp : players = []
  · rw [if_pos hp] at hout
    cases hout
  · rw [if_neg hp] at hout
    cases hout
    obtain ⟨p, hpmem, rfl⟩ := List.mem_map.mp hpr
    rw [List.mem_filter] at hpmem
    obtain ⟨hpmem, hcond⟩ := hpmem
    rw [decide_eq_true_eq] at hcond
    have hrange : p ∈ List.range (2 ^ (players.length - 1)) := by
      rw [← totalScores_map_fst players score]
      exact ((sortByKey_perm imbalanceKey (totalScores players score)).map
        Prod.fst).mem_iff.mp hpmem
    rw [List.mem_range] at hrange
    have hplt : p < 2 ^ players.length :=
      lt_of_lt_of_le hrange (Nat.pow_le_pow_right (by omega) (by omega))
    have hperm12 : ((buildTeams players p).1 ++ (buildTeams players p).2).Perm players := by
      rw [buildTeams_eq]
      have hfil := List.filter_append_perm (fun ip => !(p.testBit ip.1)) players.enum
      have hfil2 : ((players.enum.filter fun ip => !(p.testBit ip.1))
          ++ (players.enum.filter fun ip => p.testBit ip.1)).Perm players.enum := by
        simpa [Bool.not_not] using hfil
      rw [← List.map_append]
      have hm := hfil2.map Prod.snd
      rw [List.enum_map_snd] at hm
      exact hm
    have hlen2 : (buildTeams players p).2.length = countOnes p := by
      rw [buildTeams_eq]
      rw [List.length_map, ← List.countP_eq_length_filter]
      have hm := List.countP_map (fun i => p.testBit i) Prod.fst players.enum
      rw [List.enum_map_fst] at hm
      rw [countOnes_eq_countP p players.length hplt, hm]
      rfl
    have hlensum : (buildTeams players p).1.length + (buildTeams players p).2.length
        = players.length := by
      have := hperm12.length_eq
      simpa using this
    refine ⟨hperm12, ?_, ?_⟩ <;>
      (unfold absDiff at hcond; split at hcond <;> omega)

/-- C5 witness: the first suggestion for the roster `[a, b, c]` with the zero
score function partitions the roster with group sizes 2 and 1. -/
theorem balanced_partitioning_partition_witness :
    ((["b", "c"] ++ ["a"]).Perm ["a", "b", "c"]) ∧
    (((["b", "c"] : List String).length : ℤ) - (["a"] : List String).length ≤ 1) ∧
    (((["a"] : List String).length : ℤ) - (["b", "c"] : List String).length ≤ 1) :=
  balanced_partitioning_partition ["a", "b", "c"] (fun _ => 0)
    [(["b", "c"], ["a"]), (["a", "c"], ["b"]), (["c"], ["a", "b"])]
    (["b", "c"], ["a"]) (by decide) (by decide)

/-! ### Merge compatibility of the per-player and per-map updates -/

theorem userIntEq_refl (u : User) : UserIntEq u u :=
  ⟨rfl, rfl, rfl, rfl, rfl, rfl, rfl, rfl⟩

theorem userIntEq_trans {a b c : User} (h1 : UserIntEq a b) (h2 : UserIntEq b c) :
    UserIntEq a c := by
  obtain ⟨a1, a2, a3, a4, a5, a6, a7, a8⟩ := h1
  obtain ⟨b1, b2, b3, b4, b5, b6, b7, b8⟩ := h2
  exact ⟨a1.trans b1, a2.trans b2, a3.trans b3, a4.trans b4, a5.trans b5,
    a6.trans b6, a7.trans b7, a8.trans b8⟩

theorem userIntEq_update (g : GameStats) (p : PlayerStat) {a b : User}
    (h : UserIntEq a b) : UserIntEq (updateUserForPlayer g p a) (updateUserForPlayer g p b) := by
  obtain ⟨h1, h2, h3, h4, h5, h6, h7, h8⟩ := h
  unfold UserIntEq updateUserForPlayer
  cases ht : attributionSide p
  case Marines =>
    by_cases hw : g.round_info.winning_team = WinningTeam.Marines <;>
      simp [ht, hw, h1, h2, h3, h4, h5, h6, h7, h8]
  case Aliens =>
    by_cases hw : g.round_info.winning_team = WinningTeam.Aliens <;>
      simp [ht, hw, h1, h2, h3, h4, h5, h6, h7, h8]

theorem userIntEq_commanderAdd_congr (team : Team) {a b : User} (h : UserIntEq a b) :
    UserIntEq { a with commander := a.commander.add Nat.add team 1 }
      { b with commander := b.commander.add Nat.add team 1 } := by
  obtain ⟨h1, h2, h3, h4, h5, h6, h7, h8⟩ := h
  exact ⟨h1, by rw [h2], h3, h4, h5, h6, h7, h8⟩

theorem userMerge_update (g : GameStats) (p : PlayerStat) (a b : User) :
    UserIntEq (updateUserForPlayer g p (User.merge a b))
      (User.merge a (updateUserForPlayer g p b)) := by
  unfold UserIntEq updateUserForPlayer User.merge
  cases ht : attributionSide p
  case Marines =>
    by_cases hw : g.round_info.winning_team = WinningTeam.Marines <;>
      simp [ht, hw, Stat.add, statMerge, Nat.add_assoc]
  case Aliens =>
    by_cases hw : g.round_info.winning_team = WinningTeam.Aliens <;>
      simp [ht, hw, Stat.add, statMerge, Nat.add_assoc]

theorem userMerge_update_default (g : GameStats) (p : PlayerStat) (a : User) :
    UserIntEq (updateUserForPlayer g p a)
      (User.merge a (updateUserForPlayer g p User.default)) := by
  unfold UserIntEq updateUserForPlayer User.merge User.default
  cases ht : attributionSide p
  case Marines =>
    by_cases hw : g.round_info.winning_team = WinningTeam.Marines <;>
      simp [ht, hw, Stat.add, statMerge, Nat.add_assoc]
  case Aliens =>
    by_cases hw : g.round_info.winning_team = WinningTeam.Aliens <;>
      simp [ht, hw, Stat.add, statMerge, Nat.add_assoc]

theorem userMerge_commanderAdd (team : Team) (a b : User) :
    UserIntEq
      { User.merge a b with
          commander := (User.merge a b).commander.add Nat.add team 1 }
      (User.merge a { b with commander := b.commander.add Nat.add team 1 }) := by
  unfold UserIntEq User.merge
  cases team <;> simp [Stat.add, statMerge, Nat.add_assoc]

theorem mapMerge_update (g : GameStats) (a b : Map) :
    updateMapForGame g (Map.merge a b) = Map.merge a (updateMapForGame g b) := by
  unfold updateMapForGame Map.merge
  cases g.round_info.winning_team <;> simp [Nat.add_assoc]

theorem mapMerge_update_default (g : GameStats) (a : Map) :
    updateMapForGame g a = Map.merge a (updateMapForGame g Map.default) := by
  unfold updateMapForGame Map.merge Map.default
  cases g.round_info.winning_team <;> simp [Nat.add_assoc]

/-! ### Commander lookup facts -/

theorem maxByKeyLast_mem_aux {α : Type} (key : α → ℕ) (l : List α) :
    ∀ (acc : Option α) (a : α),
      l.foldl (fun acc x =>
        match acc with
        | none => some x
        | some b => if key b ≤ key x then some x else some b) acc = some a →
      acc = some a ∨ a ∈ l := by
  induction l with
  | nil => intro acc a h; exact .inl h
  | cons x rest ih =>
    intro acc a h
    rw [List.foldl_cons] at h
    rcases ih _ a h with h' | h'
    · cases acc with
      | none =>
        have h2 : some x = some a := h'
        cases h2
        exact .inr (List.mem_cons_self _ _)
      | some b =>
        have h2 : (if key b ≤ key x then some x else some b) = some a := h'
        by_cases hk : key b ≤ key x
        · rw [if_pos hk] at h2
          cases h2
          exact .inr (List.mem_cons_self _ _)
        · rw [if_neg hk] at h2
          exact .inl h2
    · exact .inr (List.mem_cons_of_mem _ h')

theorem foldl_max_isSome {α : Type} (key : α → ℕ) (l : List α) :
    ∀ b : α, (l.foldl (fun acc x =>
        match acc with
        | none => some x
        | some b => if key b ≤ key x then some x else some b) (some b)).isSome := by
  induction l with
  | nil => intro b; rfl
  | cons x rest ih =>
    intro b
    rw [List.foldl_cons]
    by_cases hk : key b ≤ key x
    · show (rest.foldl _ (if key b ≤ key x then some x else some b)).isSome
      rw [if_pos hk]; exact ih x
    · show (rest.foldl _ (if key b ≤ key x then some x else some b)).isSome
      rw [if_neg hk]; exact ih b

theorem get_commander_mem (team : Team) (players : List PlayerStat) (name : String)
    (h : get_commander team players = some name) :
    ∃ p ∈ players, p.player_name = name := by
  unfold get_commander at h
  obtain ⟨p, hp, hname⟩ := Option.map_eq_some'.mp h
  rcases maxByKeyLast_mem_aux (commanderKey team) players none p hp with h' | h'
  · cases h'
  · exact ⟨p, h', hname⟩

theorem get_commander_isSome (team : Team) (players : List PlayerStat)
    (h : players ≠ []) : (get_commander team players).isSome := by
  unfold get_commander maxByKeyLast
  cases players with
  | nil => exact absurd rfl h
  | cons x rest =>
    rw [List.foldl_cons, Option.isSome_map']
    exact foldl_max_isSome (commanderKey team) rest x

theorem foldl_upsert_isSome (g : GameStats) (ps : List PlayerStat) :
    ∀ (us : List (String × User)) (key : String), (lookupKV us key).isSome →
      (lookupKV (ps.foldl (fun us q =>
        upsertKV us q.player_name User.default (updateUserForPlayer g q)) us) key).isSome := by
  induction ps with
  | nil => intro us key h; exact h
  | cons q rest ih =>
    intro us key h
    rw [List.foldl_cons]
    exact ih _ key (lookupKV_upsertKV_isSome us q.player_name key _ _ h)

theorem lookupKV_processPlayers_isSome (g : GameStats) (ps : List PlayerStat)
    (us : List (String × User)) {p : PlayerStat} (hp : p ∈ ps) :
    (lookupKV (ps.foldl (fun us q =>
      upsertKV us q.player_name User.default (updateUserForPlayer g q)) us)
      p.player_name).isSome := by
  induction ps generalizing us with
  | nil => cases hp
  | cons q rest ih =>
    rw [List.foldl_cons]
    rcases List.mem_cons.mp hp with heq | hp'
    · subst heq
      apply foldl_upsert_isSome
      rw [lookupKV_upsertKV_self]
      rfl
    · exact ih _ hp'

/-! ### Merge compatibility of one game step -/

theorem foldl_players_congr (g : GameStats) (ps : List PlayerStat)
    {u v : List (String × User)} (h : UsersRel u v) :
    UsersRel
      (ps.foldl (fun us q =>
        upsertKV us q.player_name User.default (updateUserForPlayer g q)) u)
      (ps.foldl (fun us q =>
        upsertKV us q.player_name User.default (updateUserForPlayer g q)) v) := by
  induction ps generalizing u v with
  | nil => exact h
  | cons q rest ih =>
    rw [List.foldl_cons, List.foldl_cons]
    exact ih (upsertKV_congr q.player_name User.default (updateUserForPlayer g q)
      userIntEq_refl (fun a b hab => userIntEq_update g q hab) h)

theorem processPlayers_mergeKV (g : GameStats) (ps : List PlayerStat)
    (xu : List (String × User)) :
    ∀ yu, UsersRel
      (ps.foldl (fun us q =>
        upsertKV us q.player_name User.default (updateUserForPlayer g q))
        (mergeKV User.merge xu yu))
      (mergeKV User.merge xu
        (ps.foldl (fun us q =>
          upsertKV us q.player_name User.default (updateUserForPlayer g q)) yu)) := by
  induction ps with
  | nil => intro yu; exact kvrel_refl userIntEq_refl _
  | cons p rest ih =>
    intro yu
    rw [List.foldl_cons, List.foldl_cons]
    have h1 := mergeKV_upsertKV User.merge UserIntEq p.player_name User.default
      (updateUserForPlayer g p) userIntEq_refl (userMerge_update g p)
      (userMerge_update_default g p) xu yu
    exact @kvrel_trans _ UserIntEq (fun _ _ _ => userIntEq_trans) _ _ _
      (foldl_players_congr g rest h1)
      (ih (upsertKV yu p.player_name User.default (updateUserForPlayer g p)))

theorem snapRel_refl (s : NS2Stats) : SnapRel s s :=
  ⟨rfl, rfl, rfl, rfl, rfl, kvrel_refl userIntEq_refl _⟩

theorem snapRel_trans {a b c : NS2Stats} (h1 : SnapRel a b) (h2 : SnapRel b c) :
    SnapRel a c := by
  obtain ⟨a1, a2, a3, a4, a5, a6⟩ := h1
  obtain ⟨b1, b2, b3, b4, b5, b6⟩ := h2
  exact ⟨a1.trans b1, a2.trans b2, a3.trans b3, a4.trans b4, a5.trans b5,
    @kvrel_trans _ UserIntEq (fun _ _ _ => userIntEq_trans) _ _ _ a6 b6⟩

theorem processGame_congr (g : GameStats) {s t : NS2Stats} (h : SnapRel s t) :
    SnapRel (processGame s g) (processGame t g) := by
  obtain ⟨hl, ht, hm, ha, hmap, hu⟩ := h
  unfold SnapRel processGame
  refine ⟨?_, ?_, ?_, ?_, ?_, ?_⟩
  · dsimp only; rw [hl]
  · dsimp only; rw [ht]
  · dsimp only; rw [hm]
  · dsimp only; rw [ha]
  · dsimp only; rw [hmap]
  · dsimp only
    apply updateKV_congr _ _ (fun a b hab => userIntEq_commanderAdd_congr Team.Aliens hab)
    apply updateKV_congr _ _ (fun a b hab => userIntEq_commanderAdd_congr Team.Marines hab)
    exact foldl_players_congr g g.player_stats hu

/-- Merge compatibility of one game step: processing a game on a merged
snapshot agrees (up to `f32` score values) with processing it on the second
operand and merging afterwards, provided the game has at least one player
(otherwise the commander `unwrap_or_default` lookup can touch a user named
`""` coming from the first operand — see the counterexample). -/
theorem processGame_merge (x y : NS2Stats) (g : GameStats)
    (hg : g.player_stats ≠ []) :
    SnapRel (processGame (x.merge y) g) (x.merge (processGame y g)) := by
  unfold SnapRel NS2Stats.merge processGame
  refine ⟨?_, ?_, ?_, ?_, ?_, ?_⟩
  · dsimp only
    split <;> split <;> omega
  · dsimp only
    omega
  · dsimp only
    split <;> omega
  · dsimp only
    split <;> omega
  · dsimp only
    refine kvrel_eq_iff.mp ?_
    exact mergeKV_upsertKV Map.merge (fun a b => a = b) g.round_info.map_name
      Map.default (updateMapForGame g) (fun _ => rfl) (mapMerge_update g)
      (mapMerge_update_default g) x.maps y.maps
  · dsimp only
    have hstep1 := processPlayers_mergeKV g g.player_stats x.users y.users
    obtain ⟨mcn, hmc⟩ :=
      Option.isSome_iff_exists.mp (get_commander_isSome Team.Marines g.player_stats hg)
    obtain ⟨pm, hpmemM, hpnameM⟩ := get_commander_mem Team.Marines g.player_stats mcn hmc
    obtain ⟨acn, hac⟩ :=
      Option.isSome_iff_exists.mp (get_commander_isSome Team.Aliens g.player_stats hg)
    obtain ⟨pa, hpmemA, hpnameA⟩ := get_commander_mem Team.Aliens g.player_stats acn hac
    have hmcSome : (lookupKV (processPlayers g y.users)
        ((get_commander Team.Marines g.player_stats).getD "")).isSome := by
      rw [hmc, Option.getD_some, ← hpnameM]
      exact lookupKV_processPlayers_isSome g g.player_stats y.users hpmemM
    have hacSome : (lookupKV (processPlayers g y.users)
        ((get_commander Team.Aliens g.player_stats).getD "")).isSome := by
      rw [hac, Option.getD_some, ← hpnameA]
      exact lookupKV_processPlayers_isSome g g.player_stats y.users hpmemA
    have t2 := @updateKV_congr _ UserIntEq
      ((get_commander Team.Marines g.player_stats).getD "")
      (fun u => { u with commander := u.commander.add Nat.add Team.Marines 1 })
      (fun a b hab => userIntEq_commanderAdd_congr Team.Marines hab) _ _ hstep1
    have t3 := mergeKV_updateKV User.merge UserIntEq
      ((get_commander Team.Marines g.player_stats).getD "")
      (fun u => { u with commander := u.commander.add Nat.add Team.Marines 1 })
      userIntEq_refl (userMerge_commanderAdd Team.Marines) x.users
      (processPlayers g y.users) hmcSome
    have t4 := @kvrel_trans _ UserIntEq (fun _ _ _ => userIntEq_trans) _ _ _ t2 t3
    have t5 := @updateKV_congr _ UserIntEq
      ((get_commander Team.Aliens g.player_stats).getD "")
      (fun u => { u with commander := u.commander.add Nat.add Team.Aliens 1 })
      (fun a b hab => userIntEq_commanderAdd_congr Team.Aliens hab) _ _ t4
    have hacSome2 : (lookupKV (updateKV (processPlayers g y.users)
        ((get_commander Team.Marines g.player_stats).getD "")
        (fun u => { u with commander := u.commander.add Nat.add Team.Marines 1 }))
        ((get_commander Team.Aliens g.player_stats).getD "")).isSome :=
      lookupKV_updateKV_isSome _ _ _ _ hacSome
    have t6 := mergeKV_updateKV User.merge UserIntEq
      ((get_commander Team.Aliens g.player_stats).getD "")
      (fun u => { u with commander := u.commander.add Nat.add Team.Aliens 1 })
      userIntEq_refl (userMerge_commanderAdd Team.Aliens) x.users
      (updateKV (processPlayers g y.users)
        ((get_commander Team.Marines g.player_stats).getD "")
        (fun u => { u with commander := u.commander.add Nat.add Team.Marines 1 }))
      hacSome2
    exact @kvrel_trans _ UserIntEq (fun _ _ _ => userIntEq_trans) _ _ _ t5 t6

theorem foldl_processGame_snapRel_congr (l : List GameStats) {s t : NS2Stats}
    (h : SnapRel s t) :
    SnapRel (l.foldl processGame s) (l.foldl processGame t) := by
  induction l generalizing s t with
  | nil => exact h
  | cons g rest ih => exact ih (processGame_congr g h)

theorem foldl_processGame_merge (B : List GameStats) (x : NS2Stats) :
    ∀ y, (∀ g ∈ B, g.player_stats ≠ []) →
      SnapRel (B.foldl processGame (x.merge y)) (x.merge (B.foldl processGame y)) := by
  induction B with
  | nil => intro y _; exact snapRel_refl _
  | cons g rest ih =>
    intro y hB
    rw [List.foldl_cons, List.foldl_cons]
    have hg : g.player_stats ≠ [] := hB g (List.mem_cons_self _ _)
    have h2 := foldl_processGame_snapRel_congr rest (processGame_merge x y g hg)
    exact snapRel_trans h2
      (ih (processGame y g) (fun g' hg' => hB g' (List.mem_cons_of_mem _ hg')))

theorem mergeKV_nil {β : Type} (c : β → β → β) (l : List (String × β)) :
    mergeKV c l [] = l := by
  induction l with
  | nil => rfl
  | cons x rest ih =>
    obtain ⟨k, v⟩ := x
    simp [mergeKV, lookupKV, ih]

/-- Merging with the all-zero snapshot is the identity. -/
theorem merge_zero (x : NS2Stats) :
    x.merge { latest_game := 0, users := [], maps := [], total_games := 0
              marine_wins := 0, alien_wins := 0 } = x := by
  unfold NS2Stats.merge
  simp [mergeKV_nil]

/-- C3 (amended): for every partition of a match sequence into `A` and `B`
such that every match of `B` has at least one player, recomputing over the
concatenation agrees with merging the two part snapshots on `latest_game`,
`total_games`, `marine_wins`, `alien_wins`, the whole map table, and every
integer-valued counter of every user (same user keys in the same order); the
`f32` score counters are the only fields allowed to differ, and they can
(see the counterexample). -/
theorem compute_append_merge (A B : List GameStats)
    (hB : ∀ g ∈ B, g.player_stats ≠ []) :
    SnapRel (NS2Stats.compute (A ++ B))
      ((NS2Stats.compute A).merge (NS2Stats.compute B)) := by
  unfold NS2Stats.compute
  rw [List.foldl_append]
  have hmain := foldl_processGame_merge B
    (List.foldl processGame
      { latest_game := 0, users := [], maps := [], total_games := 0
        marine_wins := 0, alien_wins := 0 } A)
    { latest_game := 0, users := [], maps := [], total_games := 0
      marine_wins := 0, alien_wins := 0 } hB
  rw [merge_zero] at hmain
  exact hmain

/-- C3 witness: one nonempty match in each part; the hypothesis that every
match of `B` has players holds by computation. -/
theorem compute_append_merge_witness :
    SnapRel (NS2Stats.compute ([gHighScore] ++ [gGenuine]))
      ((NS2Stats.compute [gHighScore]).merge (NS2Stats.compute [gGenuine])) :=
  compute_append_merge [gHighScore] [gGenuine]
    (fun g hg => by
      rw [List.mem_singleton] at hg
      subst hg
      exact List.cons_ne_nil _ _)

/-- C10: what `NS2Stats::compute` adds to a player's score aggregate per
match is the attribution side's round score divided by the round length
(`stats.score as f32 / round_length`, line 158 of `ns2-stat/src/lib.rs`),
not the raw score; consequently the aggregated score total equals the `f32`
fold of the per-match `score / round_length` contributions over exactly the
matches in which the player appears, in processing order. -/
theorem compute_score_per_second (games : List GameStats) (name : String) :
    (getUser (NS2Stats.compute games) name).score.total
      = List.foldl fadd32 0 (scoreContribs name games) :=
  foldl_processGame_score games _ name

end Ns2
